import Mathlib

/-!
Verification of the watermark tool (src/app.py) against its specification.

The Python source is shallowly embedded below.  Python integers are `ℤ`;
Python `//` (floor division) is `Int.fdiv`; Python `int()` applied to an
exact rational value truncates toward zero and is `Int.tdiv` on the exact
numerator/denominator pair; Python `%` with the positive modulus 2 is
`Int.emod`.  Strings are Lean `String`s (lists of characters).  PIL images
are modelled as a structure carrying a channel mode, dimensions and a pixel
function.  Behaviour that lives outside the repository's own code (font
metrics, glyph coverage produced by the font rasterizer, the resampling map
of a nonzero rotation) is modelled by universally quantified parameters, so
the theorems hold for every possible behaviour of those externals.
-/

/-! ## Definitions -/

/-! ### Placement calculator (src/app.py, `calculate_position`, lines 75-111) -/

/-- Embedding of `calculate_position(img_width, img_height, text_width,
text_height, position_key)`: per-anchor coordinates with fixed padding 20,
center uses Python floor division `//`, any unrecognized key falls back to
the bottom-right formulas. -/
def calculate_position (img_width img_height text_width text_height : ℤ)
    (position_key : String) : ℤ × ℤ :=
  let padding : ℤ := 20
  if position_key = "bottom_right" then
    (img_width - text_width - padding, img_height - text_height - padding)
  else if position_key = "bottom_left" then
    (padding, img_height - text_height - padding)
  else if position_key = "top_right" then
    (img_width - text_width - padding, padding)
  else if position_key = "top_left" then
    (padding, padding)
  else if position_key = "center" then
    (Int.fdiv (img_width - text_width) 2, Int.fdiv (img_height - text_height) 2)
  else
    (img_width - text_width - padding, img_height - text_height - padding)

/-- Embedding of the clamping done in `add_single_watermark` (src/app.py,
lines 198-200): `x = max(0, min(x, img_width - text_width))` and likewise
for `y`.  These are the coordinates actually used by the paste. -/
def clampedPosition (img_width img_height text_width text_height : ℤ)
    (position_key : String) : ℤ × ℤ :=
  let p := calculate_position img_width img_height text_width text_height position_key
  (max 0 (min p.1 (img_width - text_width)), max 0 (min p.2 (img_height - text_height)))

/-! ### Rotation transform (src/app.py, `create_text_image`, lines 151-157)

`create_text_image` rotates the glyph layer with
`text_img.rotate(rotation_angle, expand=True, fillcolor=(0, 0, 0, 0))`.
PIL's `Image.rotate(angle)` resamples through the inverse affine matrix
`[cos φ, sin φ, _; −sin φ, cos φ, _]` with `φ = −radians(angle)`: an output
pixel at position `q` (relative to the rotation centre, in image coordinates
with the y axis pointing down) takes its value from the input position
`(cos φ · q.x + sin φ · q.y, −sin φ · q.x + cos φ · q.y)`.  We model this
point map exactly over `ℚ`, representing an angle `a` by the pair
`(c, s) = (cos a, sin a)` on the unit circle, so the matrix entries are
`(cos φ, sin φ) = (c, −s)`; the expand-translation only shifts the centre
and does not affect the direction of rotation. -/

/-- The inverse point map of PIL `Image.rotate`, as applied by the rotate
call in `create_text_image`: given the matrix entries `(cosphi, sinphi)` it
sends an output position to the input position it is resampled from. -/
def pilRotInv (cosphi sinphi : ℚ) (q : ℚ × ℚ) : ℚ × ℚ :=
  (cosphi * q.1 + sinphi * q.2, -sinphi * q.1 + cosphi * q.2)

/-- Visually clockwise rotation by the angle with cosine `c` and sine `s`,
in image coordinates (x to the right, y pointing down). -/
def cwMap (c s : ℚ) (p : ℚ × ℚ) : ℚ × ℚ :=
  (c * p.1 - s * p.2, s * p.1 + c * p.2)

/-- Visually counter-clockwise rotation by the angle with cosine `c` and
sine `s`, in image coordinates (x to the right, y pointing down). -/
def ccwMap (c s : ℚ) (p : ℚ × ℚ) : ℚ × ℚ :=
  (c * p.1 + s * p.2, -s * p.1 + c * p.2)

/-! ### Tiling engine (src/app.py, `add_tiled_watermark`, lines 246-268) -/

/-- Embedding of `spacing_x = spacing_y = int(font_size * (density / 100) * 1.5)`
(src/app.py, lines 248-249) in exact arithmetic:
`font_size * (density / 100) * 1.5 = font_size * density * 3 / 200` as a
rational number, and Python `int()` truncates toward zero (`Int.tdiv`). -/
def tileSpacing (font_size density : ℤ) : ℤ :=
  Int.tdiv (font_size * density * 3) 200

/-- Embedding of the row-offset expression (src/app.py, line 261):
`row_offset = (spacing_x // 2) if ((y // spacing_y) % 2 == 1) else 0`. -/
def rowOffset (spacing_x spacing_y y : ℤ) : ℤ :=
  if Int.emod (Int.fdiv y spacing_y) 2 = 1 then Int.fdiv spacing_x 2 else 0

/-- The row-offset expression with Python's division-by-zero behaviour made
explicit: `y // spacing_y` raises `ZeroDivisionError` when `spacing_y = 0`. -/
def rowOffsetE (spacing_x spacing_y y : ℤ) : Except String ℤ :=
  if spacing_y = 0 then Except.error "integer division or modulo by zero"
  else Except.ok (rowOffset spacing_x spacing_y y)

/-- Embedding of the inner while loop (src/app.py, lines 264-267): emit `x`,
step `x += spacing_x`, while `x < img_width + text_width`.  The positivity
of the spacing is the loop's termination measure. -/
def tileRowXs (boundX spacing_x : ℤ) (hsx : 0 < spacing_x) (x : ℤ) : List ℤ :=
  if x < boundX then x :: tileRowXs boundX spacing_x hsx (x + spacing_x) else []
termination_by (boundX - x).toNat
decreasing_by omega

/-- Embedding of the outer while loop (src/app.py, lines 257-268): for each
row `y` the start is `x = -row_offset`, the row is emitted, and
`y += spacing_y`, while `y < img_height + text_height`. -/
def tileLoop (boundX boundY spacing_x spacing_y : ℤ)
    (hsx : 0 < spacing_x) (hsy : 0 < spacing_y) (y : ℤ) : List (ℤ × ℤ) :=
  if y < boundY then
    ((tileRowXs boundX spacing_x hsx (-(rowOffset spacing_x spacing_y y))).map
        (fun x => (x, y))) ++
      tileLoop boundX boundY spacing_x spacing_y hsx hsy (y + spacing_y)
  else []
termination_by (boundY - y).toNat
decreasing_by omega

/-- The sequence of paste positions emitted by `add_tiled_watermark` for a
canvas of size `img_width × img_height` and a glyph layer of size
`text_width × text_height`. -/
def add_tiled_placements (img_width img_height text_width text_height
    font_size density : ℤ) (hs : 0 < tileSpacing font_size density) :
    List (ℤ × ℤ) :=
  tileLoop (img_width + text_width) (img_height + text_height)
    (tileSpacing font_size density) (tileSpacing font_size density) hs hs 0

/-- The starting x coordinate of the row with index `i` (the row whose `y`
is `spacing * i`): `0` for even `i` and `-(spacing // 2)` for odd `i`. -/
def rowStart (spacing i : ℤ) : ℤ :=
  if Int.emod i 2 = 1 then -(Int.fdiv spacing 2) else 0

/-! #### Binary64 model of the spacing expression

`int(font_size * (density / 100) * 1.5)` (src/app.py, line 248) is
evaluated by CPython in IEEE-754 binary64 arithmetic: `density / 100` is
the correctly rounded double quotient of the two ints, the int operand of
`*` is converted to the nearest double, each multiplication rounds its
exact product to the nearest double (ties to even), `1.5` is exactly
representable, and `int()` truncates toward zero.  Every binary64 value is
a rational, and rounding a positive rational to 53 significant bits is
integer rounding of the significand scaled into `[2^52, 2^53)`, so the
rounding is modelled exactly over `ℚ` (for the normal range, which the
spacing computation never leaves). -/

/-- Round a rational to the nearest integer, ties to even. -/
def roundHalfEven (q : ℚ) : ℤ :=
  if q - (⌊q⌋ : ℚ) < 1 / 2 then ⌊q⌋
  else if (1 : ℚ) / 2 < q - (⌊q⌋ : ℚ) then ⌊q⌋ + 1
  else if ⌊q⌋ % 2 = 0 then ⌊q⌋ else ⌊q⌋ + 1

/-- Round a positive rational to the nearest binary64 value (ties to
even): scale the significand into `[2^52, 2^53)` using the binade
`Int.log 2 q`, round it to an integer, scale back. -/
def rnd64pos (q : ℚ) : ℚ :=
  (roundHalfEven (q * (2 : ℚ) ^ (52 - Int.log 2 q)) : ℚ) * (2 : ℚ) ^ (Int.log 2 q - 52)

/-- Round any rational to the nearest binary64 value (ties to even);
IEEE-754 rounding is symmetric in sign. -/
def rnd64 (q : ℚ) : ℚ :=
  if 0 < q then rnd64pos q else if q < 0 then -rnd64pos (-q) else 0

/-- Python `int()` applied to a float value: truncate toward zero. -/
def truncQ (q : ℚ) : ℤ :=
  if 0 ≤ q then ⌊q⌋ else ⌈q⌉

/-- Embedding of `int(font_size * (density / 100) * 1.5)` (src/app.py,
line 248) with its actual binary64 float semantics. -/
def tileSpacingFloat (font_size density : ℤ) : ℤ :=
  truncQ (rnd64 (rnd64 (rnd64 (font_size : ℚ) * rnd64 ((density : ℚ) / 100)) * (3 / 2)))

/-- The paste positions emitted by `add_tiled_watermark` with the spacing
value the program actually computes. -/
def add_tiled_placements_float (img_width img_height text_width text_height
    font_size density : ℤ) (hs : 0 < tileSpacingFloat font_size density) :
    List (ℤ × ℤ) :=
  tileLoop (img_width + text_width) (img_height + text_height)
    (tileSpacingFloat font_size density) (tileSpacingFloat font_size density) hs hs 0

/-! ### Raster images and compositing -/

/-- PIL channel modes used by the program: `RGB` (opaque 3-channel), `RGBA`
(4-channel with alpha), and `L` (8-bit grayscale, no alpha) as a
representative of the further no-alpha modes PIL supports. -/
inductive Mode where
  | RGB
  | RGBA
  | L
deriving DecidableEq, Repr

/-- Whether a mode carries an alpha channel. -/
def hasAlpha : Mode → Bool
  | Mode.RGBA => true
  | _ => false

/-- One pixel sample: red, green, blue and alpha channels (0..255; for
modes without alpha the `a` field is the canonical 255, and for `L` the
gray value is stored in `r`). -/
@[ext]
structure Px where
  r : ℕ
  g : ℕ
  b : ℕ
  a : ℕ
deriving DecidableEq, Repr

/-- A raster image: channel mode, dimensions, and the pixel samples. -/
structure Img where
  mode : Mode
  w : ℕ
  h : ℕ
  px : ℕ → ℕ → Px

/-- Pillow's `MULDIV255(a, b)` macro, the exact integer approximation of
`a * b / 255` used by its blending code:
`t = a*b + 128; ((t >> 8) + t) >> 8`. -/
def muldiv255 (x y : ℕ) : ℕ :=
  ((x * y + 128) / 256 + (x * y + 128)) / 256

/-- Pillow's per-channel paste blend with mask value `m`:
`MULDIV255(dest, 255 - m) + MULDIV255(src, m)`. -/
def blendCh (d s m : ℕ) : ℕ :=
  muldiv255 d (255 - m) + muldiv255 s m

/-- The paste blend applied to all four channels of a pixel. -/
def blendPx (d s : Px) (m : ℕ) : Px :=
  ⟨blendCh d.r s.r m, blendCh d.g s.g m, blendCh d.b s.b m, blendCh d.a s.a m⟩

/-- Embedding of `image.convert('RGBA')`: RGB gains an opaque alpha channel,
L replicates its gray value into r, g, b and gains an opaque alpha. -/
def convertRGBA (i : Img) : Img :=
  { i with
    mode := Mode.RGBA,
    px := fun x y =>
      match i.mode with
      | Mode.RGB => ⟨(i.px x y).r, (i.px x y).g, (i.px x y).b, 255⟩
      | Mode.L => ⟨(i.px x y).r, (i.px x y).r, (i.px x y).r, 255⟩
      | Mode.RGBA => i.px x y }

/-- The conversion at the top of `add_single_watermark` and
`add_tiled_watermark` (src/app.py, lines 178-181 and 232-235): convert to
RGBA unless the image already is RGBA (`image.copy()` is value-identity). -/
def toRGBA (image : Img) : Img :=
  if image.mode = Mode.RGBA then image else convertRGBA image

/-- Embedding of the RGB flatten (src/app.py, lines 206-209 and 271-274):
`rgb_img = Image.new('RGB', size, (255, 255, 255));
rgb_img.paste(img, mask=img.split()[3])` — every channel is blended onto
white through the image's own alpha band; the result has no alpha channel
(its `a` field is the canonical 255). -/
def flattenWhite (i : Img) : Img :=
  { mode := Mode.RGB, w := i.w, h := i.h,
    px := fun x y =>
      ⟨blendCh 255 (i.px x y).r (i.px x y).a,
       blendCh 255 (i.px x y).g (i.px x y).a,
       blendCh 255 (i.px x y).b (i.px x y).a, 255⟩ }

/-- Embedding of `dest.paste(src, (posx, posy), src)` (src/app.py, lines
203 and 266): inside the pasted box every channel is blended through the
alpha band of `src` as mask; anything outside the canvas is silently
clipped (the pixel function is only meaningful on the canvas). -/
def pasteInto (dest src : Img) (posx posy : ℤ) : Img :=
  { dest with
    px := fun x y =>
      if posx ≤ (x : ℤ) ∧ (x : ℤ) < posx + src.w ∧
         posy ≤ (y : ℤ) ∧ (y : ℤ) < posy + src.h then
        blendPx (dest.px x y)
          (src.px ((x : ℤ) - posx).toNat ((y : ℤ) - posy).toNat)
          (src.px ((x : ℤ) - posx).toNat ((y : ℤ) - posy).toNat).a
      else dest.px x y }

/-- The behaviour of the externals used by `create_text_image` that is not
code of this repository: the measured text size (`textbbox`), the glyph
coverage produced by the font rasterizer when drawing the text (`cov x y`
is the antialiasing coverage in 0..255 at a layer position), and, for a
nonzero angle, the output size of the expanded rotation together with its
nearest-neighbour resampling map (`none` means the fill colour). The
theorems below are quantified over all such behaviours. -/
structure FontExt where
  tw : ℕ
  th : ℕ
  cov : ℕ → ℕ → ℕ
  rotW : ℕ
  rotH : ℕ
  rot : ℕ → ℕ → Option (ℕ × ℕ)

/-- Embedding of the rotation step of `create_text_image` (src/app.py,
lines 151-157): a nonzero angle resamples into the expanded canvas with
fully transparent fill `(0, 0, 0, 0)`; angle 0 returns the input image
itself. -/
def rotateLayer (rotW rotH : ℕ) (rot : ℕ → ℕ → Option (ℕ × ℕ))
    (rotation_angle : ℤ) (img : Img) : Img :=
  if rotation_angle ≠ 0 then
    { mode := Mode.RGBA, w := rotW, h := rotH,
      px := fun x y =>
        match rot x y with
        | some p => if p.1 < img.w ∧ p.2 < img.h then img.px p.1 p.2 else ⟨0, 0, 0, 0⟩
        | none => ⟨0, 0, 0, 0⟩ }
  else img

/-- Embedding of `create_text_image` (src/app.py, lines 114-157): a
transparent RGBA canvas of size `int(tw * 1.5) × int(th * 1.5)`
(`= 3*tw/2` truncated, exact in floating point for realistic sizes), the
text drawn with ink `(r, g, b, opacity_value)` through the rasterizer's
coverage, then the rotation step. -/
def create_text_image (ext : FontExt) (color_rgb : ℕ × ℕ × ℕ)
    (opacity_value : ℕ) (rotation_angle : ℤ) : Img :=
  let text_img : Img :=
    { mode := Mode.RGBA, w := 3 * ext.tw / 2, h := 3 * ext.th / 2,
      px := fun x y =>
        blendPx ⟨0, 0, 0, 0⟩
          ⟨color_rgb.1, color_rgb.2.1, color_rgb.2.2, opacity_value⟩
          (ext.cov x y) }
  rotateLayer ext.rotW ext.rotH ext.rot rotation_angle text_img

/-- Embedding of `add_single_watermark` (src/app.py, lines 160-203) up to
and including the paste: convert the source, build the rotated glyph
layer, clamp the anchor position, paste with the layer as its own mask. -/
def add_single_working (ext : FontExt) (image : Img) (color_rgb : ℕ × ℕ × ℕ)
    (opacity_value : ℕ) (rotation_angle : ℤ) (position_key : String) : Img :=
  let img_with_watermark := toRGBA image
  let rotated_text_img := create_text_image ext color_rgb opacity_value rotation_angle
  let q := clampedPosition (img_with_watermark.w : ℤ) (img_with_watermark.h : ℤ)
    (rotated_text_img.w : ℤ) (rotated_text_img.h : ℤ) position_key
  pasteInto img_with_watermark rotated_text_img q.1 q.2

/-- Embedding of `add_single_watermark` (src/app.py, lines 160-211): after
the paste, sources whose mode is exactly `'RGB'` are flattened onto white;
every other source gets the RGBA working image back. -/
def add_single_watermark (ext : FontExt) (image : Img) (color_rgb : ℕ × ℕ × ℕ)
    (opacity_value : ℕ) (rotation_angle : ℤ) (position_key : String) : Img :=
  if image.mode = Mode.RGB then
    flattenWhite (add_single_working ext image color_rgb opacity_value rotation_angle position_key)
  else
    add_single_working ext image color_rgb opacity_value rotation_angle position_key

/-- Embedding of `add_tiled_watermark` (src/app.py, lines 214-268) up to
the end of the paste loop: convert the source, build the rotated glyph
layer, then paste it at every emitted tile position in order. -/
def add_tiled_working (ext : FontExt) (image : Img) (color_rgb : ℕ × ℕ × ℕ)
    (opacity_value : ℕ) (rotation_angle : ℤ) (font_size density : ℤ)
    (hs : 0 < tileSpacing font_size density) : Img :=
  let img_with_watermark := toRGBA image
  let rotated_text_img := create_text_image ext color_rgb opacity_value rotation_angle
  let placements := tileLoop ((img_with_watermark.w : ℤ) + rotated_text_img.w)
    ((img_with_watermark.h : ℤ) + rotated_text_img.h)
    (tileSpacing font_size density) (tileSpacing font_size density) hs hs 0
  placements.foldl (fun acc p => pasteInto acc rotated_text_img p.1 p.2) img_with_watermark

/-- Embedding of `add_tiled_watermark` (src/app.py, lines 214-276): after
the paste loop, sources whose mode is exactly `'RGB'` are flattened onto
white; every other source gets the RGBA working image back. -/
def add_tiled_watermark (ext : FontExt) (image : Img) (color_rgb : ℕ × ℕ × ℕ)
    (opacity_value : ℕ) (rotation_angle : ℤ) (font_size density : ℤ)
    (hs : 0 < tileSpacing font_size density) : Img :=
  if image.mode = Mode.RGB then
    flattenWhite (add_tiled_working ext image color_rgb opacity_value rotation_angle font_size density hs)
  else
    add_tiled_working ext image color_rgb opacity_value rotation_angle font_size density hs

/-- All four channels of a pixel are in range. -/
def chansLe (p : Px) : Prop :=
  p.r ≤ 255 ∧ p.g ≤ 255 ∧ p.b ≤ 255 ∧ p.a ≤ 255

/-- Well-formed image: on the canvas every channel is in range, and images
whose mode has no alpha channel carry the canonical value 255 in the unused
`a` field. -/
def ValidImg (i : Img) : Prop :=
  ∀ x y, x < i.w → y < i.h →
    chansLe (i.px x y) ∧ (i.mode ≠ Mode.RGBA → (i.px x y).a = 255)

/-! ### Batch pipeline and archive packager
(src/app.py, `process_images` lines 304-367, `create_zip_file` lines 370-403)

One uploaded file is a pair of its display name and the outcome of decoding
and watermarking it (`Except.error` models the exception caught at
src/app.py line 359, `Except.ok` the produced image; the image payload type
is a parameter since the claims do not depend on it). -/

/-- Python dict assignment `d[k] = v` on an insertion-ordered dict
represented as an association list: replace in place if the key is present,
append otherwise. -/
def dictInsert {α : Type} (d : List (String × α)) (k : String) (v : α) :
    List (String × α) :=
  if d.any (fun p => p.1 == k) then d.map (fun p => if p.1 == k then (k, v) else p)
  else d ++ [(k, v)]

/-- Embedding of the per-file loop of `process_images` (src/app.py, lines
331-361): a successful file is stored in the `processed_images` dict under
its name; a failure is reported (`st.error`) against the file's name and
the loop continues with the next file. -/
def processLoop {α : Type} (acc : List (String × α)) (errs : List (String × String)) :
    List (String × Except String α) → List (String × α) × List (String × String)
  | [] => (acc, errs)
  | f :: rest =>
    match f.2 with
    | Except.ok img => processLoop (dictInsert acc f.1 img) errs rest
    | Except.error e => processLoop acc (errs ++ [(f.1, e)]) rest

/-- Embedding of `process_images` (src/app.py, lines 304-367): returns the
dict of processed images together with the sequence of reported failures. -/
def process_images {α : Type} (uploaded_files : List (String × Except String α)) :
    List (String × α) × List (String × String) :=
  processLoop [] [] uploaded_files

/-- The successful entry a file contributes, if any. -/
def okPair {α : Type} : String × Except String α → Option (String × α)
  | (n, Except.ok img) => some (n, img)
  | (_, Except.error _) => none

/-- The failure record a file contributes, if any. -/
def errPair {α : Type} : String × Except String α → Option (String × String)
  | (n, Except.error e) => some (n, e)
  | (_, Except.ok _) => none

/-- The encoded payload of an archive entry: `image.save(..., format='PNG')`
or `image.save(..., format='JPEG', quality=...)` (src/app.py, lines
388-392). -/
inductive Payload (α : Type) where
  | png : α → Payload α
  | jpeg : α → ℕ → Payload α
deriving DecidableEq

/-- One entry of the produced ZIP archive: output filename and payload. -/
structure ArchiveEntry (α : Type) where
  name : String
  payload : Payload α
deriving DecidableEq

/-- Python `str.rfind(c)` on a character list: the largest index holding
`c`, or `-1` if there is none. -/
def rfindChar (c : Char) (l : List Char) : ℤ :=
  l.enum.foldl (fun acc p => if p.2 = c then (p.1 : ℤ) else acc) (-1)

/-- `os.path.splitext(p)[0]` (posix): if the last dot comes after the last
separator and at least one character strictly between them is not a dot,
the stem is everything before that last dot; otherwise the whole name. -/
def splitextStem (l : List Char) : List Char :=
  let dotIndex := rfindChar '.' l
  let sepIndex := rfindChar '/' l
  if sepIndex < dotIndex then
    if ((l.drop (sepIndex + 1).toNat).take (dotIndex - sepIndex - 1).toNat).any
        (fun ch => ch != '.') then
      l.take dotIndex.toNat
    else l
  else l

/-- `filename.lower().endswith('.png')` (src/app.py, line 388); `str.lower`
is modelled by `Char.toLower`, which agrees on ASCII. -/
def lowerEndsWithPng (s : String) : Bool :=
  List.isSuffixOf ".png".data (s.data.map Char.toLower)

/-- The derived output name (src/app.py, lines 396-397):
`os.path.splitext(filename)[0] + "_watermarked" + ext`. -/
def derivedName (filename : String) (ext : String) : String :=
  String.mk (splitextStem filename.data ++ "_watermarked".data ++ ext.data)

/-- Embedding of `create_zip_file` (src/app.py, lines 370-403): one archive
entry per processed image, PNG when the original name ends in `.png`
case-insensitively and JPEG at quality 95 otherwise, under the derived
name. -/
def create_zip_file {α : Type} (processed_images : List (String × α)) :
    List (ArchiveEntry α) :=
  processed_images.map (fun p =>
    if lowerEndsWithPng p.1 then
      { name := derivedName p.1 ".png", payload := Payload.png p.2 }
    else
      { name := derivedName p.1 ".jpg", payload := Payload.jpeg p.2 95 })

/-! ### Concrete fixtures used by counterexamples and witnesses -/

/-- A degenerate external behaviour: zero glyph coverage, empty rotation
resample. -/
def ext0 : FontExt :=
  ⟨10, 4, fun _ _ => 0, 7, 7, fun _ _ => none⟩

/-- A 1×1 grayscale (`'L'`, no alpha channel) source image. -/
def imgL : Img :=
  { mode := Mode.L, w := 1, h := 1, px := fun _ _ => ⟨9, 9, 9, 255⟩ }

/-- A 1×1 RGB source image. -/
def imgRGB1 : Img :=
  { mode := Mode.RGB, w := 1, h := 1, px := fun _ _ => ⟨1, 2, 3, 255⟩ }

/-- A 1×1 RGBA source image. -/
def imgRGBA1 : Img :=
  { mode := Mode.RGBA, w := 1, h := 1, px := fun _ _ => ⟨4, 5, 6, 200⟩ }

/-- A concrete batch with one corrupt source among two valid ones (image
payloads stand in as numbers). -/
def batchFiles : List (String × Except String ℕ) :=
  [("a.jpg", Except.ok 0), ("bad.png", Except.error "decode failure"),
   ("c.png", Except.ok 1)]

/-- A concrete single-file batch with an uppercase PNG extension. -/
def pngFiles : List (String × Except String ℕ) :=
  [("photo.PNG", Except.ok 0)]

/-! ## Theorems -/

/-! ### Claims C2 and C4 -/

/-- `calculate_position` always lands in one of the five formula shapes of
the source (the else branch repeats the bottom-right formulas). -/
theorem calculate_position_cases (W H w h : ℤ) (key : String) :
    calculate_position W H w h key = (W - w - 20, H - h - 20) ∨
    calculate_position W H w h key = (20, H - h - 20) ∨
    calculate_position W H w h key = (W - w - 20, 20) ∨
    calculate_position W H w h key = (20, 20) ∨
    calculate_position W H w h key = (Int.fdiv (W - w) 2, Int.fdiv (H - h) 2) := by
  unfold calculate_position
  split
  · exact Or.inl rfl
  · split
    · exact Or.inr (Or.inl rfl)
    · split
      · exact Or.inr (Or.inr (Or.inl rfl))
      · split
        · exact Or.inr (Or.inr (Or.inr (Or.inl rfl)))
        · split
          · exact Or.inr (Or.inr (Or.inr (Or.inr rfl)))
          · exact Or.inl rfl

/-- Claim C2: for every anchor name and all canvas/layer dimensions with
`canvasW ≥ layerW + 40` and `canvasH ≥ layerH + 40`, the single-mode
placement returns coordinates `(x, y)` with `0 ≤ x ≤ canvasW − layerW` and
`0 ≤ y ≤ canvasH − layerH`; more generally the coordinates actually used to
draw the layer are clamped into `[0, canvas − layer]` on both axes whenever
`canvas ≥ layer`. -/
theorem single_placement_in_bounds (W H w h : ℤ) (key : String) :
    (w + 40 ≤ W → h + 40 ≤ H →
      0 ≤ (calculate_position W H w h key).1 ∧
      (calculate_position W H w h key).1 ≤ W - w ∧
      0 ≤ (calculate_position W H w h key).2 ∧
      (calculate_position W H w h key).2 ≤ H - h) ∧
    (w ≤ W → h ≤ H →
      0 ≤ (clampedPosition W H w h key).1 ∧
      (clampedPosition W H w h key).1 ≤ W - w ∧
      0 ≤ (clampedPosition W H w h key).2 ∧
      (clampedPosition W H w h key).2 ≤ H - h) := by
  have hW : Int.fdiv (W - w) 2 = (W - w) / 2 := Int.fdiv_eq_ediv _ (by norm_num)
  have hH : Int.fdiv (H - h) 2 = (H - h) / 2 := Int.fdiv_eq_ediv _ (by norm_num)
  have hc := calculate_position_cases W H w h key
  constructor
  · intro h1 h2
    rcases hc with hc | hc | hc | hc | hc <;> rw [hc] <;> dsimp only <;>
      (try simp only [hW, hH]) <;> refine ⟨by omega, by omega, by omega, by omega⟩
  · intro h1 h2
    unfold clampedPosition
    rcases hc with hc | hc | hc | hc | hc <;> rw [hc] <;> dsimp only <;>
      (try simp only [hW, hH]) <;> refine ⟨by omega, by omega, by omega, by omega⟩

/-- Witness for C2 at `place(1000, 800, 200, 50, "center")`. -/
theorem single_placement_in_bounds_witness :
    ((200 : ℤ) + 40 ≤ 1000 ∧ (50 : ℤ) + 40 ≤ 800) ∧
    (0 ≤ (calculate_position 1000 800 200 50 "center").1 ∧
     (calculate_position 1000 800 200 50 "center").1 ≤ 1000 - 200 ∧
     0 ≤ (calculate_position 1000 800 200 50 "center").2 ∧
     (calculate_position 1000 800 200 50 "center").2 ≤ 800 - 50) :=
  ⟨⟨by norm_num, by norm_num⟩,
   (single_placement_in_bounds 1000 800 200 50 "center").1 (by norm_num) (by norm_num)⟩

/-- Claim C4: single-mode placement computes exactly the per-anchor formulas
with fixed padding 20; any unrecognized anchor name yields the bottom-right
result; in particular `place(1000, 800, 200, 50, "bottom_right") = (780, 730)`
and `place(1000, 800, 200, 50, "center") = (400, 375)`. -/
theorem calculate_position_formulas (W H w h : ℤ) :
    calculate_position W H w h "bottom_right" = (W - w - 20, H - h - 20) ∧
    calculate_position W H w h "bottom_left" = (20, H - h - 20) ∧
    calculate_position W H w h "top_right" = (W - w - 20, 20) ∧
    calculate_position W H w h "top_left" = (20, 20) ∧
    calculate_position W H w h "center" = (Int.fdiv (W - w) 2, Int.fdiv (H - h) 2) ∧
    (∀ key : String,
      key ≠ "bottom_right" → key ≠ "bottom_left" → key ≠ "top_right" →
      key ≠ "top_left" → key ≠ "center" →
      calculate_position W H w h key = (W - w - 20, H - h - 20)) ∧
    calculate_position 1000 800 200 50 "bottom_right" = (780, 730) ∧
    calculate_position 1000 800 200 50 "center" = (400, 375) := by
  refine ⟨rfl, rfl, rfl, rfl, rfl, ?_, by decide, by decide⟩
  intro key h1 h2 h3 h4 h5
  unfold calculate_position
  rw [if_neg h1, if_neg h2, if_neg h3, if_neg h4, if_neg h5]

/-- Witness for C4: the fallback branch evaluated at the unrecognized anchor
name `"middle"`. -/
theorem calculate_position_formulas_witness :
    calculate_position 1000 800 200 50 "middle" = (780, 730) :=
  (calculate_position_formulas 1000 800 200 50).2.2.2.2.2.1 "middle"
    (by decide) (by decide) (by decide) (by decide) (by decide)

/-! ### Claim C1 -/

/-- Counterexample to claim C1 as stated: at angle `+90` degrees (so
`(c, s) = (0, 1)` and the matrix entries are `(cos(−90°), sin(−90°)) =
(0, −1)`), the content of the input point `(1, 0)` does **not** appear at
the clockwise position `cwMap 0 1 (1, 0)` — the resample map does not pull
that output position back to `(1, 0)` — but it does appear at the
counter-clockwise position.  So a positive angle rotates counter-clockwise,
not clockwise. -/
theorem rotation_clockwise_positive_false :
    pilRotInv 0 (-1) (cwMap 0 1 ((1 : ℚ), 0)) ≠ ((1 : ℚ), 0) ∧
    pilRotInv 0 (-1) (ccwMap 0 1 ((1 : ℚ), 0)) = ((1 : ℚ), 0) := by
  constructor
  · intro hcontra
    have h1 : (pilRotInv 0 (-1) (cwMap 0 1 ((1 : ℚ), 0))).1 = -1 := by
      norm_num [pilRotInv, cwMap]
    rw [hcontra] at h1
    norm_num at h1
  · norm_num [pilRotInv, ccwMap, Prod.mk.injEq]

/-- Claim C1, corrected: for every angle (represented by its cosine and sine
`(c, s)` on the unit circle) the rotate call moves the content of each point
`p` to exactly the counter-clockwise position `ccwMap c s p` — positive
angles (`s > 0`) rotate counter-clockwise in image coordinates — and the
rotation by the negated angle `(c, −s)` is precisely the clockwise map, so
negative angles rotate clockwise. -/
theorem rotation_positive_is_ccw (c s : ℚ) (hcs : c ^ 2 + s ^ 2 = 1)
    (p q : ℚ × ℚ) :
    pilRotInv c (-s) (ccwMap c s p) = p ∧
    (pilRotInv c (-s) q = p → q = ccwMap c s p) ∧
    ccwMap c (-s) p = cwMap c s p := by
  refine ⟨?_, ?_, ?_⟩
  · have e1 : c * (c * p.1 + s * p.2) + -s * (-s * p.1 + c * p.2) = p.1 := by
      linear_combination p.1 * hcs
    have e2 : - -s * (c * p.1 + s * p.2) + c * (-s * p.1 + c * p.2) = p.2 := by
      linear_combination p.2 * hcs
    exact Prod.ext e1 e2
  · intro hq
    have h1 : c * q.1 + -s * q.2 = p.1 := congrArg Prod.fst hq
    have h2 : - -s * q.1 + c * q.2 = p.2 := congrArg Prod.snd hq
    have e1 : q.1 = c * p.1 + s * p.2 := by
      linear_combination c * h1 + s * h2 - q.1 * hcs
    have e2 : q.2 = -s * p.1 + c * p.2 := by
      linear_combination (-s) * h1 + c * h2 - q.2 * hcs
    exact Prod.ext e1 e2
  · simp only [ccwMap, cwMap, Prod.mk.injEq]
    constructor <;> ring

/-- Witness for the corrected C1 at the angle `+90` degrees
(`(c, s) = (0, 1)`) and the point `(2, 3)`. -/
theorem rotation_positive_is_ccw_witness :
    ((0 : ℚ) ^ 2 + 1 ^ 2 = 1) ∧
    (pilRotInv 0 (-1) (ccwMap 0 1 ((2 : ℚ), 3)) = ((2 : ℚ), 3) ∧
     (pilRotInv 0 (-1) ((5 : ℚ), 6) = ((2 : ℚ), 3) → ((5 : ℚ), 6) = ccwMap 0 1 ((2 : ℚ), 3)) ∧
     ccwMap 0 (-1) ((2 : ℚ), 3) = cwMap 0 1 ((2 : ℚ), 3)) :=
  ⟨by norm_num, rotation_positive_is_ccw 0 1 (by norm_num) ((2 : ℚ), 3) ((5 : ℚ), 6)⟩

/-! ### Tiling: loop characterization lemmas, claims C3 and C10 -/

/-- The inner tile loop emits exactly the arithmetic progression
`x0, x0 + s, x0 + 2s, …` of the positions below the bound. -/
theorem tileRowXs_mem_aux (boundX sx : ℤ) (hsx : 0 < sx) :
    ∀ (n : ℕ) (x0 : ℤ), (boundX - x0).toNat ≤ n → ∀ x : ℤ,
      (x ∈ tileRowXs boundX sx hsx x0 ↔
        ∃ j : ℕ, x = x0 + sx * (j : ℤ) ∧ x < boundX) := by
  intro n
  induction n with
  | zero =>
    intro x0 hn x
    rw [tileRowXs, if_neg (by omega)]
    simp only [List.not_mem_nil, false_iff]
    rintro ⟨j, hj, hlt⟩
    have hj0 : (0 : ℤ) ≤ sx * (j : ℤ) := by positivity
    set t := sx * ((j : ℕ) : ℤ) with ht
    omega
  | succ n ih =>
    intro x0 hn x
    rw [tileRowXs]
    by_cases hxb : x0 < boundX
    · rw [if_pos hxb]
      rw [List.mem_cons, ih (x0 + sx) (by omega) x]
      constructor
      · rintro (rfl | ⟨j, rfl, hlt⟩)
        · exact ⟨0, by simp, hxb⟩
        · exact ⟨j + 1, by push_cast; ring, hlt⟩
      · rintro ⟨j, rfl, hlt⟩
        cases j with
        | zero => left; simp
        | succ j => right; exact ⟨j, by push_cast; ring, hlt⟩
    · rw [if_neg hxb]
      simp only [List.not_mem_nil, false_iff]
      rintro ⟨j, hj, hlt⟩
      have hj0 : (0 : ℤ) ≤ sx * (j : ℤ) := by positivity
      set t := sx * ((j : ℕ) : ℤ) with ht
      omega

/-- The outer tile loop emits exactly the rows `y0, y0 + s, y0 + 2s, …`
below the bound, each row being the inner loop started at the negated
row offset. -/
theorem tileLoop_mem_aux (boundX boundY sx sy : ℤ) (hsx : 0 < sx) (hsy : 0 < sy) :
    ∀ (n : ℕ) (y0 : ℤ), (boundY - y0).toNat ≤ n → ∀ p : ℤ × ℤ,
      (p ∈ tileLoop boundX boundY sx sy hsx hsy y0 ↔
        ∃ i : ℕ, p.2 = y0 + sy * (i : ℤ) ∧ p.2 < boundY ∧
          p.1 ∈ tileRowXs boundX sx hsx (-(rowOffset sx sy p.2))) := by
  intro n
  induction n with
  | zero =>
    intro y0 hn p
    rw [tileLoop, if_neg (by omega)]
    simp only [List.not_mem_nil, false_iff]
    rintro ⟨i, hA, hB, -⟩
    have hi0 : (0 : ℤ) ≤ sy * (i : ℤ) := by positivity
    set t := sy * ((i : ℕ) : ℤ) with ht
    omega
  | succ n ih =>
    intro y0 hn p
    rw [tileLoop]
    by_cases hyb : y0 < boundY
    · rw [if_pos hyb]
      constructor
      · intro hmem
        rcases List.mem_append.mp hmem with hmem | hmem
        · obtain ⟨x, hx, hpx⟩ := List.mem_map.mp hmem
          refine ⟨0, ?_, ?_, ?_⟩
          · rw [← hpx]; simp
          · rw [← hpx]; simpa using hyb
          · rw [← hpx]; simpa using hx
        · obtain ⟨i, hA, hB, hC⟩ := (ih (y0 + sy) (by omega) p).mp hmem
          refine ⟨i + 1, ?_, hB, hC⟩
          rw [hA]; push_cast; ring
      · rintro ⟨i, hA, hB, hC⟩
        cases i with
        | zero =>
          apply List.mem_append.mpr
          left
          apply List.mem_map.mpr
          have hp2 : p.2 = y0 := by simpa using hA
          rw [hp2] at hC
          exact ⟨p.1, hC, Prod.ext rfl hp2.symm⟩
        | succ i =>
          apply List.mem_append.mpr
          right
          apply (ih (y0 + sy) (by omega) p).mpr
          refine ⟨i, ?_, hB, hC⟩
          rw [hA]; push_cast; ring
    · rw [if_neg hyb]
      simp only [List.not_mem_nil, false_iff]
      rintro ⟨i, hA, hB, -⟩
      have hi0 : (0 : ℤ) ≤ sy * (i : ℤ) := by positivity
      set t := sy * ((i : ℕ) : ℤ) with ht
      omega

/-- On the row at `y = spacing * i` the code's row offset is exactly the
per-index `rowStart`. -/
theorem rowOffset_mul_self (s i : ℤ) (hs : s ≠ 0) :
    -(rowOffset s s (s * i)) = rowStart s i := by
  unfold rowOffset rowStart
  rw [Int.mul_fdiv_cancel_left _ hs]
  by_cases h : Int.emod i 2 = 1
  · rw [if_pos h, if_pos h]
  · rw [if_neg h, if_neg h, neg_zero]

/-- The full tiling pattern of the double loop with equal positive spacing
`s` on both axes: `(x, y)` is emitted iff `y = s · i` for a row index `i`
with `y < boundY` and `x = rowStart s i + s · j` with `x < boundX`. -/
theorem tileLoop_pattern (boundX boundY s : ℤ) (hs : 0 < s) (p : ℤ × ℤ) :
    p ∈ tileLoop boundX boundY s s hs hs 0 ↔
      ∃ i j : ℕ, p.2 = s * (i : ℤ) ∧ p.2 < boundY ∧
        p.1 = rowStart s (i : ℤ) + s * (j : ℤ) ∧ p.1 < boundX := by
  rw [tileLoop_mem_aux boundX boundY s s hs hs (boundY - 0).toNat 0 le_rfl p]
  constructor
  · rintro ⟨i, hA, hB, hC⟩
    rw [zero_add] at hA
    rw [tileRowXs_mem_aux boundX s hs
        (boundX - -(rowOffset s s p.2)).toNat _ le_rfl p.1] at hC
    obtain ⟨j, hx, hxb⟩ := hC
    refine ⟨i, j, hA, hB, ?_, hxb⟩
    rw [hx, hA, rowOffset_mul_self _ _ hs.ne']
  · rintro ⟨i, j, hA, hB, hC, hD⟩
    refine ⟨i, by rw [zero_add]; exact hA, hB, ?_⟩
    rw [tileRowXs_mem_aux boundX s hs
        (boundX - -(rowOffset s s p.2)).toNat _ le_rfl p.1]
    refine ⟨j, ?_, hD⟩
    rw [hC, hA, rowOffset_mul_self _ _ hs.ne']

/-- Compute `roundHalfEven` when the fractional part is below one half. -/
theorem roundHalfEven_eq_of_lt (q : ℚ) (f : ℤ) (hf1 : (f : ℚ) ≤ q)
    (hf2 : q < f + 1) (hlt : q - f < 1 / 2) : roundHalfEven q = f := by
  have hfl : ⌊q⌋ = f := Int.floor_eq_iff.mpr ⟨hf1, hf2⟩
  unfold roundHalfEven
  simp only [hfl]
  rw [if_pos hlt]

/-- Evaluate `rnd64` from an explicit binade bracket
`2^e ≤ q < 2^(e+1)` and the rounded significand `m`. -/
theorem rnd64_eq_of (q : ℚ) (e m : ℤ) (h1 : (2 : ℚ) ^ e ≤ q)
    (h2 : q < (2 : ℚ) ^ (e + 1))
    (h3 : roundHalfEven (q * (2 : ℚ) ^ (52 - e)) = m) :
    rnd64 q = (m : ℚ) * (2 : ℚ) ^ (e - 52) := by
  have hq : 0 < q := lt_of_lt_of_le (zpow_pos (by norm_num) _) h1
  have hL1 : ((2 : ℕ) : ℚ) ^ Int.log 2 q ≤ q := Int.zpow_log_le_self (by norm_num) hq
  have hL2 : q < ((2 : ℕ) : ℚ) ^ (Int.log 2 q + 1) := Int.lt_zpow_succ_log_self (by norm_num) q
  have hcast : ((2 : ℕ) : ℚ) = 2 := by norm_num
  rw [hcast] at hL1 hL2
  have hmono := zpow_right_strictMono₀ (by norm_num : (1 : ℚ) < 2)
  have ha : Int.log 2 q < e + 1 := hmono.lt_iff_lt.mp (lt_of_le_of_lt hL1 h2)
  have hb2 : e < Int.log 2 q + 1 := hmono.lt_iff_lt.mp (lt_of_le_of_lt h1 hL2)
  have hlog : Int.log 2 q = e := by omega
  unfold rnd64 rnd64pos
  rw [if_pos hq, hlog, h3]

/-- src/app.py line 248 at fontSize 25, density 232: `232/100` rounds to
the double `5224175567749775 · 2⁻⁵¹`, slightly below `2.32`; the two
products round down twice more, to `86.99999999999998934…`, and `int()`
yields 86 — one below the exact `floor(25 × 2.32 × 1.5) = 87`. -/
theorem tileSpacingFloat_25_232 : tileSpacingFloat 25 232 = 86 := by
  have h232 : rnd64 (((232 : ℤ) : ℚ) / 100) = 5224175567749775 / 2251799813685248 := by
    have h := rnd64_eq_of (((232 : ℤ) : ℚ) / 100) 1 5224175567749775
      (by push_cast; norm_num) (by push_cast; norm_num)
      (by apply roundHalfEven_eq_of_lt <;> push_cast <;> norm_num)
    rw [h]
    norm_num
  have h25 : rnd64 ((25 : ℤ) : ℚ) = 25 := by
    have h := rnd64_eq_of (((25 : ℤ) : ℚ)) 4 7036874417766400
      (by push_cast; norm_num) (by push_cast; norm_num)
      (by apply roundHalfEven_eq_of_lt <;> push_cast <;> norm_num)
    rw [h]
    norm_num
  have hmul : rnd64 ((25 : ℚ) * (5224175567749775 / 2251799813685248)) =
      8162774324609023 / 140737488355328 := by
    have h := rnd64_eq_of ((25 : ℚ) * (5224175567749775 / 2251799813685248)) 5
      8162774324609023 (by norm_num) (by norm_num)
      (by apply roundHalfEven_eq_of_lt <;> norm_num)
    rw [h]
    norm_num
  have hmul15 : rnd64 ((8162774324609023 / 140737488355328 : ℚ) * (3 / 2)) =
      6122080743456767 / 70368744177664 := by
    have h := rnd64_eq_of ((8162774324609023 / 140737488355328 : ℚ) * (3 / 2)) 6
      6122080743456767 (by norm_num) (by norm_num)
      (by apply roundHalfEven_eq_of_lt <;> norm_num)
    rw [h]
    norm_num
  unfold tileSpacingFloat
  rw [h25, h232, hmul, hmul15]
  unfold truncQ
  rw [if_pos (by norm_num)]
  rw [Int.floor_eq_iff]
  constructor <;> norm_num

/-- src/app.py line 248 at fontSize 50, density 400: every intermediate
double is exact (`4`, `50`, `200`, `300`), so the float spacing equals the
exact floor, 300. -/
theorem tileSpacingFloat_50_400 : tileSpacingFloat 50 400 = 300 := by
  have h400 : rnd64 (((400 : ℤ) : ℚ) / 100) = 4 := by
    have h := rnd64_eq_of (((400 : ℤ) : ℚ) / 100) 2 4503599627370496
      (by push_cast; norm_num) (by push_cast; norm_num)
      (by apply roundHalfEven_eq_of_lt <;> push_cast <;> norm_num)
    rw [h]
    norm_num
  have h50 : rnd64 ((50 : ℤ) : ℚ) = 50 := by
    have h := rnd64_eq_of (((50 : ℤ) : ℚ)) 5 7036874417766400
      (by push_cast; norm_num) (by push_cast; norm_num)
      (by apply roundHalfEven_eq_of_lt <;> push_cast <;> norm_num)
    rw [h]
    norm_num
  have hmul : rnd64 ((50 : ℚ) * 4) = 200 := by
    have h := rnd64_eq_of ((50 : ℚ) * 4) 7 7036874417766400
      (by norm_num) (by norm_num)
      (by apply roundHalfEven_eq_of_lt <;> norm_num)
    rw [h]
    norm_num
  have hmul15 : rnd64 ((200 : ℚ) * (3 / 2)) = 300 := by
    have h := rnd64_eq_of ((200 : ℚ) * (3 / 2)) 8 5277655813324800
      (by norm_num) (by norm_num)
      (by apply roundHalfEven_eq_of_lt <;> norm_num)
    rw [h]
    norm_num
  unfold tileSpacingFloat
  rw [h50, h400, hmul, hmul15]
  unfold truncQ
  rw [if_pos (by norm_num)]
  rw [Int.floor_eq_iff]
  constructor <;> norm_num

/-- The spacing the program computes at the concrete tiling instance of
the specification is positive. -/
theorem tileSpacingFloat_50_400_pos : 0 < tileSpacingFloat 50 400 := by
  rw [tileSpacingFloat_50_400]
  norm_num

/-- Counterexample to claim C3's spacing equality as stated: at the
in-range parameters fontSize 25, density 232 (the data model allows
fontSize 10–200 and density 200–1000), the program's binary64 evaluation
of `int(font_size * (density / 100) * 1.5)` yields 86, while the claimed
`floor(25 × (232/100) × 1.5)` is 87 — as is the exact-arithmetic spacing
`tileSpacing 25 232`. -/
theorem tiled_spacing_floor_false :
    tileSpacingFloat 25 232 = 86 ∧
    Int.fdiv (25 * 232 * 3) 200 = 87 ∧
    tileSpacing 25 232 = 87 :=
  ⟨tileSpacingFloat_25_232, by decide, by decide⟩

/-- Claim C3, corrected: the tiled-mode spacing is the binary64 evaluation
of `fontSize × (density/100) × 1.5` truncated toward zero, which can fall
one below the exact floor the claim states; with the spacing the program
computes, placements are emitted at `y = 0, spacing, 2·spacing, …` while
`y < canvasH + layerH`, each row starting at `x = −floor(spacing/2)` when
`floor(y/spacing)` is odd and at `x = 0` when even, stepping `x` by
`spacing` while `x < canvasW + layerW`; for
`tile(1000, 800, 40, 20, fontSize=50, density=400)` the float evaluation
is exact: spacing = 300 = `floor(50 × 4 × 1.5)`, row index 0 starts at
`x = 0`, and row index 1 starts at `x = −150`. -/
theorem tiled_pattern_float (W H tw th fs d : ℤ)
    (hs : 0 < tileSpacingFloat fs d) :
    (∀ p : ℤ × ℤ, p ∈ add_tiled_placements_float W H tw th fs d hs ↔
      ∃ i j : ℕ, p.2 = tileSpacingFloat fs d * (i : ℤ) ∧ p.2 < H + th ∧
        p.1 = rowStart (tileSpacingFloat fs d) (i : ℤ) + tileSpacingFloat fs d * (j : ℤ) ∧
        p.1 < W + tw) ∧
    (tileSpacingFloat 50 400 = 300 ∧
     tileSpacingFloat 50 400 = Int.fdiv (50 * 400 * 3) 200 ∧
     rowStart 300 0 = 0 ∧ rowStart 300 1 = -150) ∧
    (((0 : ℤ), (0 : ℤ)) ∈
        add_tiled_placements_float 1000 800 40 20 50 400 tileSpacingFloat_50_400_pos ∧
     (∀ x : ℤ, (x, (0 : ℤ)) ∈
        add_tiled_placements_float 1000 800 40 20 50 400 tileSpacingFloat_50_400_pos →
        0 ≤ x) ∧
     ((-150 : ℤ), (300 : ℤ)) ∈
        add_tiled_placements_float 1000 800 40 20 50 400 tileSpacingFloat_50_400_pos ∧
     (∀ x : ℤ, (x, (300 : ℤ)) ∈
        add_tiled_placements_float 1000 800 40 20 50 400 tileSpacingFloat_50_400_pos →
        -150 ≤ x)) := by
  have hts := tileSpacingFloat_50_400
  refine ⟨fun p => tileLoop_pattern (W + tw) (H + th) (tileSpacingFloat fs d) hs p,
    ⟨hts, by rw [hts]; decide, by decide, by decide⟩, ?_, ?_, ?_, ?_⟩
  · refine (tileLoop_pattern (1000 + 40) (800 + 20) (tileSpacingFloat 50 400)
      tileSpacingFloat_50_400_pos ((0 : ℤ), (0 : ℤ))).mpr ?_
    refine ⟨0, 0, by simp, by norm_num, ?_, by norm_num⟩
    simp only [rowStart]
    rw [if_neg (by decide)]
    simp
  · intro x hx
    obtain ⟨i, j, hA, hB, hC, hD⟩ := (tileLoop_pattern (1000 + 40) (800 + 20)
      (tileSpacingFloat 50 400) tileSpacingFloat_50_400_pos (x, (0 : ℤ))).mp hx
    simp only at hA hB hC hD
    rw [hts] at hA hC
    have hi : ((i : ℕ) : ℤ) = 0 := by omega
    rw [hi] at hC
    have h0 : rowStart 300 0 = 0 := by decide
    rw [h0] at hC
    omega
  · refine (tileLoop_pattern (1000 + 40) (800 + 20) (tileSpacingFloat 50 400)
      tileSpacingFloat_50_400_pos ((-150 : ℤ), (300 : ℤ))).mpr ?_
    refine ⟨1, 0, ?_, by norm_num, ?_, by norm_num⟩
    · dsimp only
      rw [hts]
      norm_num
    · dsimp only
      rw [hts]
      decide
  · intro x hx
    obtain ⟨i, j, hA, hB, hC, hD⟩ := (tileLoop_pattern (1000 + 40) (800 + 20)
      (tileSpacingFloat 50 400) tileSpacingFloat_50_400_pos (x, (300 : ℤ))).mp hx
    simp only at hA hB hC hD
    rw [hts] at hA hC
    have hi : ((i : ℕ) : ℤ) = 1 := by omega
    rw [hi] at hC
    have h1 : rowStart 300 1 = -150 := by decide
    rw [h1] at hC
    omega

/-- Witness for the corrected C3 at
`tile(1000, 800, 40, 20, fontSize=50, density=400)`: the computed spacing
is 300 and equals the exact floor there, row 0 starts at 0, row 1 starts
at −150. -/
theorem tiled_pattern_float_witness :
    (0 : ℤ) < tileSpacingFloat 50 400 ∧
    (tileSpacingFloat 50 400 = 300 ∧
     tileSpacingFloat 50 400 = Int.fdiv (50 * 400 * 3) 200 ∧
     rowStart 300 0 = 0 ∧ rowStart 300 1 = -150) :=
  ⟨tileSpacingFloat_50_400_pos,
   (tiled_pattern_float 1000 800 40 20 50 400 tileSpacingFloat_50_400_pos).2.1⟩

/-- Each inner-loop run emits at most `boundX − x0` placements: `x`
advances by at least 1 each step. -/
theorem tileRowXs_length (boundX sx : ℤ) (hsx : 0 < sx) :
    ∀ (n : ℕ) (x0 : ℤ), (boundX - x0).toNat ≤ n →
      (tileRowXs boundX sx hsx x0).length ≤ (boundX - x0).toNat := by
  intro n
  induction n with
  | zero =>
    intro x0 hn
    rw [tileRowXs, if_neg (by omega)]
    simp
  | succ n ih =>
    intro x0 hn
    rw [tileRowXs]
    by_cases hxb : x0 < boundX
    · rw [if_pos hxb]
      have := ih (x0 + sx) (by omega)
      simp only [List.length_cons]
      omega
    · rw [if_neg hxb]
      simp

/-- The whole tile loop emits at most `(boundY − y0) · (boundX + sx)`
placements. -/
theorem tileLoop_length (boundX boundY sx sy : ℤ) (hsx : 0 < sx) (hsy : 0 < sy) :
    ∀ (n : ℕ) (y0 : ℤ), (boundY - y0).toNat ≤ n →
      (tileLoop boundX boundY sx sy hsx hsy y0).length ≤
        (boundY - y0).toNat * (boundX + sx).toNat := by
  intro n
  induction n with
  | zero =>
    intro y0 hn
    rw [tileLoop, if_neg (by omega)]
    simp
  | succ n ih =>
    intro y0 hn
    rw [tileLoop]
    by_cases hyb : y0 < boundY
    · rw [if_pos hyb]
      have h2 : Int.fdiv sx 2 = sx / 2 := Int.fdiv_eq_ediv _ (by norm_num)
      have hoff1 : 0 ≤ rowOffset sx sy y0 := by
        unfold rowOffset
        split <;> omega
      have hoff2 : rowOffset sx sy y0 ≤ sx := by
        unfold rowOffset
        split <;> omega
      have hrow := tileRowXs_length boundX sx hsx
        (boundX - -(rowOffset sx sy y0)).toNat (-(rowOffset sx sy y0)) le_rfl
      have hrest := ih (y0 + sy) (by omega)
      rw [List.length_append, List.length_map]
      have hrow2 : (tileRowXs boundX sx hsx (-(rowOffset sx sy y0))).length ≤
          (boundX + sx).toNat := by omega
      have hAB : (boundY - (y0 + sy)).toNat + 1 ≤ (boundY - y0).toNat := by omega
      calc (tileRowXs boundX sx hsx (-(rowOffset sx sy y0))).length +
            (tileLoop boundX boundY sx sy hsx hsy (y0 + sy)).length
          ≤ (boundX + sx).toNat + (boundY - (y0 + sy)).toNat * (boundX + sx).toNat :=
            Nat.add_le_add hrow2 hrest
        _ = ((boundY - (y0 + sy)).toNat + 1) * (boundX + sx).toNat := by ring
        _ ≤ (boundY - y0).toNat * (boundX + sx).toNat :=
            Nat.mul_le_mul_right _ hAB
    · rw [if_neg hyb]
      simp

/-- Claim C10: with spacing ≥ 1 the tiled placement double loop terminates
after emitting finitely many placements (bounded explicitly), and spacing
≥ 1 is a genuine precondition: with spacing 0 the row-offset computation
`y // spacing_y` raises a division-by-zero error, so the loop cannot
advance. -/
theorem tiled_loop_terminates (W H tw th fs d : ℤ) (hs : 0 < tileSpacing fs d) :
    (add_tiled_placements W H tw th fs d hs).length ≤
      (H + th).toNat * (W + tw + tileSpacing fs d).toNat ∧
    ∀ sx y : ℤ, rowOffsetE sx 0 y = Except.error "integer division or modulo by zero" := by
  constructor
  · have := tileLoop_length (W + tw) (H + th) _ _ hs hs (H + th - 0).toNat 0 le_rfl
    simpa using this
  · intro sx y
    unfold rowOffsetE
    rw [if_pos rfl]

/-- Witness for C10 at canvas 10×10, layer 2×2, fontSize 50, density 200
(spacing 150 > 0). -/
theorem tiled_loop_terminates_witness :
    (0 : ℤ) < tileSpacing 50 200 ∧
    ((add_tiled_placements 10 10 2 2 50 200 (by decide)).length ≤
      ((10 : ℤ) + 2).toNat * ((10 : ℤ) + 2 + tileSpacing 50 200).toNat ∧
     ∀ sx y : ℤ, rowOffsetE sx 0 y = Except.error "integer division or modulo by zero") :=
  ⟨by decide, tiled_loop_terminates 10 10 2 2 50 200 (by decide)⟩

/-! ### Compositing: blending lemmas, claims C7, C8 and C9 -/

/-- `MULDIV255(x, 0) = 0`. -/
theorem muldiv255_zero_right (x : ℕ) : muldiv255 x 0 = 0 := by
  norm_num [muldiv255]

/-- `MULDIV255(0, y) = 0`. -/
theorem muldiv255_zero_left (y : ℕ) : muldiv255 0 y = 0 := by
  norm_num [muldiv255]

set_option maxRecDepth 4096 in
/-- `MULDIV255(x, 255) = x` on the byte range, checked exhaustively. -/
theorem muldiv255_fin (x : Fin 256) : muldiv255 x 255 = x := by
  revert x
  decide

/-- `MULDIV255(x, 255) = x` for byte values. -/
theorem muldiv255_255 (x : ℕ) (hx : x ≤ 255) : muldiv255 x 255 = x := by
  have := muldiv255_fin ⟨x, by omega⟩
  simpa using this

/-- Blending through mask 0 keeps the destination channel. -/
theorem blendCh_zero (d s : ℕ) (hd : d ≤ 255) : blendCh d s 0 = d := by
  unfold blendCh
  rw [Nat.sub_zero, muldiv255_255 d hd, muldiv255_zero_right]
  omega

/-- Blending through mask 255 replaces the channel with the source. -/
theorem blendCh_full (d s : ℕ) (hs : s ≤ 255) : blendCh d s 255 = s := by
  unfold blendCh
  rw [Nat.sub_self, muldiv255_zero_right, muldiv255_255 s hs]
  omega

/-- Blending a whole pixel through mask 0 keeps the destination pixel. -/
theorem blendPx_zero (dp sp : Px) (hd : chansLe dp) : blendPx dp sp 0 = dp := by
  obtain ⟨h1, h2, h3, h4⟩ := hd
  exact Px.ext (blendCh_zero _ _ h1) (blendCh_zero _ _ h2)
    (blendCh_zero _ _ h3) (blendCh_zero _ _ h4)

/-- Drawing fully transparent ink over a fully transparent pixel leaves the
alpha channel at 0 whatever the glyph coverage is. -/
theorem blendCh_zero_zero (m : ℕ) : blendCh 0 0 m = 0 := by
  unfold blendCh
  rw [muldiv255_zero_left, muldiv255_zero_left]

/-- Rotation preserves an everywhere-transparent layer: every output pixel
is either the transparent fill or a resampled (transparent) input pixel. -/
theorem rotateLayer_alpha (rW rH : ℕ) (rot : ℕ → ℕ → Option (ℕ × ℕ))
    (angle : ℤ) (img : Img) (himg : ∀ x y, (img.px x y).a = 0) (x y : ℕ) :
    ((rotateLayer rW rH rot angle img).px x y).a = 0 := by
  unfold rotateLayer
  split
  · dsimp only
    cases rot x y with
    | none => rfl
    | some p =>
      dsimp only
      split
      · exact himg p.1 p.2
      · rfl
  · exact himg x y

/-- With opacity 0 the rendered (and possibly rotated) glyph layer is
everywhere fully transparent, for every rasterizer coverage and every
rotation resample map. -/
theorem create_text_image_alpha (ext : FontExt) (c3 : ℕ × ℕ × ℕ) (angle : ℤ)
    (x y : ℕ) : ((create_text_image ext c3 0 angle).px x y).a = 0 := by
  unfold create_text_image
  apply rotateLayer_alpha
  intro x y
  exact blendCh_zero_zero (ext.cov x y)

/-- Pasting an everywhere-transparent layer changes no destination pixel
with in-range channels. -/
theorem pasteInto_px_alpha (dest src : Img) (posx posy : ℤ)
    (hsrc : ∀ x y, (src.px x y).a = 0) (x y : ℕ)
    (hd : chansLe (dest.px x y)) :
    (pasteInto dest src posx posy).px x y = dest.px x y := by
  unfold pasteInto
  dsimp only
  split
  · rw [hsrc]
    exact blendPx_zero _ _ hd
  · rfl

/-- The tiled paste fold keeps the mode. -/
theorem foldl_paste_mode (src : Img) (ps : List (ℤ × ℤ)) (acc : Img) :
    (List.foldl (fun a p => pasteInto a src p.1 p.2) acc ps).mode = acc.mode := by
  induction ps generalizing acc with
  | nil => rfl
  | cons p ps ih => exact (ih (pasteInto acc src p.1 p.2)).trans rfl

/-- The tiled paste fold keeps the width. -/
theorem foldl_paste_w (src : Img) (ps : List (ℤ × ℤ)) (acc : Img) :
    (List.foldl (fun a p => pasteInto a src p.1 p.2) acc ps).w = acc.w := by
  induction ps generalizing acc with
  | nil => rfl
  | cons p ps ih => exact (ih (pasteInto acc src p.1 p.2)).trans rfl

/-- The tiled paste fold keeps the height. -/
theorem foldl_paste_h (src : Img) (ps : List (ℤ × ℤ)) (acc : Img) :
    (List.foldl (fun a p => pasteInto a src p.1 p.2) acc ps).h = acc.h := by
  induction ps generalizing acc with
  | nil => rfl
  | cons p ps ih => exact (ih (pasteInto acc src p.1 p.2)).trans rfl

/-- Folding pastes of an everywhere-transparent layer over any placement
list changes no canvas pixel. -/
theorem foldl_paste_px (src : Img) (hsrc : ∀ x y, (src.px x y).a = 0)
    (ps : List (ℤ × ℤ)) (acc : Img)
    (hv : ∀ x y, x < acc.w → y < acc.h → chansLe (acc.px x y))
    (x y : ℕ) (hx : x < acc.w) (hy : y < acc.h) :
    (List.foldl (fun a p => pasteInto a src p.1 p.2) acc ps).px x y = acc.px x y := by
  induction ps generalizing acc with
  | nil => rfl
  | cons p ps ih =>
    simp only [List.foldl_cons]
    have hstep : ∀ a b : ℕ, a < acc.w → b < acc.h →
        (pasteInto acc src p.1 p.2).px a b = acc.px a b := fun a b ha hb =>
      pasteInto_px_alpha acc src p.1 p.2 hsrc a b (hv a b ha hb)
    have hv2 : ∀ a b : ℕ, a < (pasteInto acc src p.1 p.2).w →
        b < (pasteInto acc src p.1 p.2).h →
        chansLe ((pasteInto acc src p.1 p.2).px a b) := by
      intro a b ha hb
      rw [hstep a b ha hb]
      exact hv a b ha hb
    rw [ih (pasteInto acc src p.1 p.2) hv2 hx hy, hstep x y hx hy]

/-- The conversion step always yields an RGBA working image. -/
theorem toRGBA_mode (i : Img) : (toRGBA i).mode = Mode.RGBA := by
  unfold toRGBA
  split
  case isTrue h => exact h
  case isFalse h => rfl

/-- The conversion step keeps the width. -/
theorem toRGBA_w (i : Img) : (toRGBA i).w = i.w := by
  unfold toRGBA
  split <;> rfl

/-- The conversion step keeps the height. -/
theorem toRGBA_h (i : Img) : (toRGBA i).h = i.h := by
  unfold toRGBA
  split <;> rfl

/-- Converting an RGB image adds an opaque alpha channel pixelwise. -/
theorem toRGBA_px_RGB (i : Img) (hm : i.mode = Mode.RGB) (x y : ℕ) :
    (toRGBA i).px x y = ⟨(i.px x y).r, (i.px x y).g, (i.px x y).b, 255⟩ := by
  unfold toRGBA convertRGBA
  rw [if_neg (by rw [hm]; intro hc; exact Mode.noConfusion hc)]
  dsimp only
  rw [hm]

/-- Converting an already-RGBA image is the identity (`image.copy()`). -/
theorem toRGBA_px_RGBA (i : Img) (hm : i.mode = Mode.RGBA) : toRGBA i = i := by
  unfold toRGBA
  rw [if_pos hm]

/-- The converted working image has in-range channels wherever the source
does. -/
theorem toRGBA_chansLe (i : Img) (hv : ValidImg i) (x y : ℕ)
    (hx : x < i.w) (hy : y < i.h) : chansLe ((toRGBA i).px x y) := by
  obtain ⟨⟨h1, h2, h3, h4⟩, -⟩ := hv x y hx hy
  unfold toRGBA convertRGBA
  split
  · exact ⟨h1, h2, h3, h4⟩
  · dsimp only
    cases hm : i.mode
    case RGB => exact ⟨h1, h2, h3, le_rfl⟩
    case RGBA => exact ⟨h1, h2, h3, h4⟩
    case L => exact ⟨h1, h1, h1, le_rfl⟩

/-- The single-watermark working image is always RGBA. -/
theorem add_single_working_mode (ext : FontExt) (image : Img)
    (c3 : ℕ × ℕ × ℕ) (op : ℕ) (angle : ℤ) (key : String) :
    (add_single_working ext image c3 op angle key).mode = Mode.RGBA := by
  unfold add_single_working
  exact toRGBA_mode image

/-- The single-watermark working image keeps the source width. -/
theorem add_single_working_w (ext : FontExt) (image : Img)
    (c3 : ℕ × ℕ × ℕ) (op : ℕ) (angle : ℤ) (key : String) :
    (add_single_working ext image c3 op angle key).w = image.w := by
  unfold add_single_working
  exact toRGBA_w image

/-- The single-watermark working image keeps the source height. -/
theorem add_single_working_h (ext : FontExt) (image : Img)
    (c3 : ℕ × ℕ × ℕ) (op : ℕ) (angle : ℤ) (key : String) :
    (add_single_working ext image c3 op angle key).h = image.h := by
  unfold add_single_working
  exact toRGBA_h image

/-- The tiled-watermark working image is always RGBA. -/
theorem add_tiled_working_mode (ext : FontExt) (image : Img)
    (c3 : ℕ × ℕ × ℕ) (op : ℕ) (angle : ℤ) (fs d : ℤ)
    (hs : 0 < tileSpacing fs d) :
    (add_tiled_working ext image c3 op angle fs d hs).mode = Mode.RGBA := by
  unfold add_tiled_working
  rw [foldl_paste_mode, toRGBA_mode]

/-- The tiled-watermark working image keeps the source width. -/
theorem add_tiled_working_w (ext : FontExt) (image : Img)
    (c3 : ℕ × ℕ × ℕ) (op : ℕ) (angle : ℤ) (fs d : ℤ)
    (hs : 0 < tileSpacing fs d) :
    (add_tiled_working ext image c3 op angle fs d hs).w = image.w := by
  unfold add_tiled_working
  rw [foldl_paste_w, toRGBA_w]

/-- The tiled-watermark working image keeps the source height. -/
theorem add_tiled_working_h (ext : FontExt) (image : Img)
    (c3 : ℕ × ℕ × ℕ) (op : ℕ) (angle : ℤ) (fs d : ℤ)
    (hs : 0 < tileSpacing fs d) :
    (add_tiled_working ext image c3 op angle fs d hs).h = image.h := by
  unfold add_tiled_working
  rw [foldl_paste_h, toRGBA_h]

/-! ### Claim C9 -/

/-- Claim C9: rotating by angle 0 is the identity: the rotation step
returns the input layer itself, unchanged. -/
theorem rotate_zero_identity (rW rH : ℕ) (rot : ℕ → ℕ → Option (ℕ × ℕ))
    (layer : Img) : rotateLayer rW rH rot 0 layer = layer := by
  unfold rotateLayer
  rw [if_neg (by simp)]

/-! ### Claim C7 -/

/-- Counterexample to claim C7 as stated: the 1×1 grayscale source `imgL`
has no alpha channel, yet `add_single_watermark` hands it back as an RGBA
image — only sources whose mode is exactly `'RGB'` are flattened back to a
no-alpha mode, so the output channel model does not match the source's. -/
theorem channel_model_l_mode_false :
    hasAlpha imgL.mode = false ∧
    hasAlpha (add_single_watermark ext0 imgL (255, 255, 255) 128 0 "center").mode = true := by
  refine ⟨rfl, ?_⟩
  have h1 : (add_single_watermark ext0 imgL (255, 255, 255) 128 0 "center").mode = Mode.RGBA := by
    unfold add_single_watermark
    rw [if_neg (by decide)]
    exact add_single_working_mode ext0 imgL (255, 255, 255) 128 0 "center"
  rw [h1]
  rfl

/-- Claim C7, corrected: a source in `'RGB'` mode (rather than every
no-alpha source) comes back flattened onto an opaque white background with
no alpha channel, and an RGBA source comes back with the alpha-bearing
working result as-is — in both single and tiled mode. -/
theorem channel_model_rgb_rgba (ext : FontExt) (image : Img) (c3 : ℕ × ℕ × ℕ)
    (op : ℕ) (angle : ℤ) (key : String) (fs d : ℤ) (hs : 0 < tileSpacing fs d) :
    (image.mode = Mode.RGB →
      add_single_watermark ext image c3 op angle key =
        flattenWhite (add_single_working ext image c3 op angle key) ∧
      hasAlpha (add_single_watermark ext image c3 op angle key).mode = false ∧
      add_tiled_watermark ext image c3 op angle fs d hs =
        flattenWhite (add_tiled_working ext image c3 op angle fs d hs) ∧
      hasAlpha (add_tiled_watermark ext image c3 op angle fs d hs).mode = false) ∧
    (image.mode = Mode.RGBA →
      add_single_watermark ext image c3 op angle key =
        add_single_working ext image c3 op angle key ∧
      hasAlpha (add_single_watermark ext image c3 op angle key).mode = true ∧
      add_tiled_watermark ext image c3 op angle fs d hs =
        add_tiled_working ext image c3 op angle fs d hs ∧
      hasAlpha (add_tiled_watermark ext image c3 op angle fs d hs).mode = true) := by
  constructor
  · intro hm
    have hsingle : add_single_watermark ext image c3 op angle key =
        flattenWhite (add_single_working ext image c3 op angle key) := by
      unfold add_single_watermark
      rw [if_pos hm]
    have htiled : add_tiled_watermark ext image c3 op angle fs d hs =
        flattenWhite (add_tiled_working ext image c3 op angle fs d hs) := by
      unfold add_tiled_watermark
      rw [if_pos hm]
    refine ⟨hsingle, ?_, htiled, ?_⟩
    · rw [hsingle]
      rfl
    · rw [htiled]
      rfl
  · intro hm
    have hneq : ¬ image.mode = Mode.RGB := by
      rw [hm]
      intro hc
      exact Mode.noConfusion hc
    have hsingle : add_single_watermark ext image c3 op angle key =
        add_single_working ext image c3 op angle key := by
      unfold add_single_watermark
      rw [if_neg hneq]
    have htiled : add_tiled_watermark ext image c3 op angle fs d hs =
        add_tiled_working ext image c3 op angle fs d hs := by
      unfold add_tiled_watermark
      rw [if_neg hneq]
    refine ⟨hsingle, ?_, htiled, ?_⟩
    · rw [hsingle, add_single_working_mode]
      rfl
    · rw [htiled, add_tiled_working_mode]
      rfl

/-- Witness for the corrected C7 at the concrete RGB source `imgRGB1`. -/
theorem channel_model_rgb_rgba_witness :
    imgRGB1.mode = Mode.RGB ∧
    (add_single_watermark ext0 imgRGB1 (0, 0, 0) 128 0 "center" =
      flattenWhite (add_single_working ext0 imgRGB1 (0, 0, 0) 128 0 "center") ∧
     hasAlpha (add_single_watermark ext0 imgRGB1 (0, 0, 0) 128 0 "center").mode = false ∧
     add_tiled_watermark ext0 imgRGB1 (0, 0, 0) 128 0 50 400 (by decide) =
      flattenWhite (add_tiled_working ext0 imgRGB1 (0, 0, 0) 128 0 50 400 (by decide)) ∧
     hasAlpha (add_tiled_watermark ext0 imgRGB1 (0, 0, 0) 128 0 50 400 (by decide)).mode = false) :=
  ⟨rfl, (channel_model_rgb_rgba ext0 imgRGB1 (0, 0, 0) 128 0 "center" 50 400 (by decide)).1 rfl⟩

/-! ### Claim C8 -/

/-- Counterexample to claim C8 as stated: with opacity 0 the grayscale
source `imgL` does not come back equal to itself pixel-for-pixel — the
returned image is RGBA (the code only restores the `'RGB'` channel model),
so the output differs from the source. -/
theorem opacity_zero_l_mode_false :
    add_single_watermark ext0 imgL (255, 255, 255) 0 0 "center" ≠ imgL := by
  intro hcontra
  have hmode := congrArg Img.mode hcontra
  have h1 : (add_single_watermark ext0 imgL (255, 255, 255) 0 0 "center").mode = Mode.RGBA := by
    unfold add_single_watermark
    rw [if_neg (by decide)]
    exact add_single_working_mode ext0 imgL (255, 255, 255) 0 0 "center"
  rw [h1] at hmode
  exact Mode.noConfusion hmode

/-- Claim C8, corrected: for every RGB or RGBA source image (the modes
whose channel model the code restores) and every external rasterizer and
rotation behaviour, compositing with opacity value 0 leaves every pixel of
the source image unchanged — the output matches the source in mode, size
and pixel-for-pixel content — in both single and tiled mode. -/
theorem opacity_zero_identity (ext : FontExt) (image : Img) (c3 : ℕ × ℕ × ℕ)
    (angle : ℤ) (key : String) (fs d : ℤ) (hs : 0 < tileSpacing fs d)
    (hmode : image.mode = Mode.RGB ∨ image.mode = Mode.RGBA)
    (hv : ValidImg image) :
    ((add_single_watermark ext image c3 0 angle key).mode = image.mode ∧
     (add_single_watermark ext image c3 0 angle key).w = image.w ∧
     (add_single_watermark ext image c3 0 angle key).h = image.h ∧
     (∀ x y, x < image.w → y < image.h →
       (add_single_watermark ext image c3 0 angle key).px x y = image.px x y)) ∧
    ((add_tiled_watermark ext image c3 0 angle fs d hs).mode = image.mode ∧
     (add_tiled_watermark ext image c3 0 angle fs d hs).w = image.w ∧
     (add_tiled_watermark ext image c3 0 angle fs d hs).h = image.h ∧
     (∀ x y, x < image.w → y < image.h →
       (add_tiled_watermark ext image c3 0 angle fs d hs).px x y = image.px x y)) := by
  have hlayer : ∀ x y, ((create_text_image ext c3 0 angle).px x y).a = 0 :=
    create_text_image_alpha ext c3 angle
  have hw_px : ∀ x y, x < image.w → y < image.h →
      (add_single_working ext image c3 0 angle key).px x y = (toRGBA image).px x y := by
    intro x y hx hy
    unfold add_single_working
    exact pasteInto_px_alpha _ _ _ _ hlayer x y (toRGBA_chansLe image hv x y hx hy)
  have ht_px : ∀ x y, x < image.w → y < image.h →
      (add_tiled_working ext image c3 0 angle fs d hs).px x y = (toRGBA image).px x y := by
    intro x y hx hy
    unfold add_tiled_working
    refine foldl_paste_px _ hlayer _ (toRGBA image) ?_ x y ?_ ?_
    · intro a b ha hb
      rw [toRGBA_w] at ha
      rw [toRGBA_h] at hb
      exact toRGBA_chansLe image hv a b ha hb
    · rw [toRGBA_w]
      exact hx
    · rw [toRGBA_h]
      exact hy
  rcases hmode with hm | hm
  · -- RGB source: the working image is flattened back onto white.
    have hneqA : image.mode ≠ Mode.RGBA := by
      rw [hm]
      intro hc
      exact Mode.noConfusion hc
    have hsingle : add_single_watermark ext image c3 0 angle key =
        flattenWhite (add_single_working ext image c3 0 angle key) := by
      unfold add_single_watermark
      rw [if_pos hm]
    have htiled : add_tiled_watermark ext image c3 0 angle fs d hs =
        flattenWhite (add_tiled_working ext image c3 0 angle fs d hs) := by
      unfold add_tiled_watermark
      rw [if_pos hm]
    have hflat : ∀ (work : Img),
        (∀ x y, x < image.w → y < image.h → work.px x y = (toRGBA image).px x y) →
        ∀ x y, x < image.w → y < image.h →
        (flattenWhite work).px x y = image.px x y := by
      intro work hwork x y hx hy
      obtain ⟨⟨h1, h2, h3, h4⟩, h5⟩ := hv x y hx hy
      have ha : (image.px x y).a = 255 := h5 hneqA
      have htr := toRGBA_px_RGB image hm x y
      unfold flattenWhite
      dsimp only
      rw [hwork x y hx hy, htr]
      dsimp only
      exact Px.ext (blendCh_full _ _ h1) (blendCh_full _ _ h2)
        (blendCh_full _ _ h3) ha.symm
    constructor
    · refine ⟨?_, ?_, ?_, ?_⟩
      · rw [hsingle, hm]
        rfl
      · rw [hsingle]
        exact add_single_working_w ext image c3 0 angle key
      · rw [hsingle]
        exact add_single_working_h ext image c3 0 angle key
      · intro x y hx hy
        rw [hsingle]
        exact hflat _ hw_px x y hx hy
    · refine ⟨?_, ?_, ?_, ?_⟩
      · rw [htiled, hm]
        rfl
      · rw [htiled]
        exact add_tiled_working_w ext image c3 0 angle fs d hs
      · rw [htiled]
        exact add_tiled_working_h ext image c3 0 angle fs d hs
      · intro x y hx hy
        rw [htiled]
        exact hflat _ ht_px x y hx hy
  · -- RGBA source: the working image is returned as-is and the conversion
    -- step was the identity.
    have hneq : ¬ image.mode = Mode.RGB := by
      rw [hm]
      intro hc
      exact Mode.noConfusion hc
    have hsingle : add_single_watermark ext image c3 0 angle key =
        add_single_working ext image c3 0 angle key := by
      unfold add_single_watermark
      rw [if_neg hneq]
    have htiled : add_tiled_watermark ext image c3 0 angle fs d hs =
        add_tiled_working ext image c3 0 angle fs d hs := by
      unfold add_tiled_watermark
      rw [if_neg hneq]
    have hto := toRGBA_px_RGBA image hm
    constructor
    · refine ⟨?_, ?_, ?_, ?_⟩
      · rw [hsingle, add_single_working_mode, hm]
      · rw [hsingle]
        exact add_single_working_w ext image c3 0 angle key
      · rw [hsingle]
        exact add_single_working_h ext image c3 0 angle key
      · intro x y hx hy
        rw [hsingle, hw_px x y hx hy, hto]
    · refine ⟨?_, ?_, ?_, ?_⟩
      · rw [htiled, add_tiled_working_mode, hm]
      · rw [htiled]
        exact add_tiled_working_w ext image c3 0 angle fs d hs
      · rw [htiled]
        exact add_tiled_working_h ext image c3 0 angle fs d hs
      · intro x y hx hy
        rw [htiled, ht_px x y hx hy, hto]

/-- Witness for the corrected C8 at the concrete RGB source `imgRGB1` with
the degenerate externals `ext0`. -/
theorem opacity_zero_identity_witness :
    ((imgRGB1.mode = Mode.RGB ∨ imgRGB1.mode = Mode.RGBA) ∧ ValidImg imgRGB1 ∧
      (0 : ℤ) < tileSpacing 50 400) ∧
    (((add_single_watermark ext0 imgRGB1 (7, 8, 9) 0 0 "top_left").mode = imgRGB1.mode ∧
      (add_single_watermark ext0 imgRGB1 (7, 8, 9) 0 0 "top_left").w = imgRGB1.w ∧
      (add_single_watermark ext0 imgRGB1 (7, 8, 9) 0 0 "top_left").h = imgRGB1.h ∧
      (∀ x y, x < imgRGB1.w → y < imgRGB1.h →
        (add_single_watermark ext0 imgRGB1 (7, 8, 9) 0 0 "top_left").px x y = imgRGB1.px x y)) ∧
     ((add_tiled_watermark ext0 imgRGB1 (7, 8, 9) 0 0 50 400 (by decide)).mode = imgRGB1.mode ∧
      (add_tiled_watermark ext0 imgRGB1 (7, 8, 9) 0 0 50 400 (by decide)).w = imgRGB1.w ∧
      (add_tiled_watermark ext0 imgRGB1 (7, 8, 9) 0 0 50 400 (by decide)).h = imgRGB1.h ∧
      (∀ x y, x < imgRGB1.w → y < imgRGB1.h →
        (add_tiled_watermark ext0 imgRGB1 (7, 8, 9) 0 0 50 400 (by decide)).px x y = imgRGB1.px x y))) :=
  ⟨⟨Or.inl rfl,
    fun x y hx hy => ⟨⟨by simp [imgRGB1], by simp [imgRGB1], by simp [imgRGB1], by simp [imgRGB1]⟩, fun _ => rfl⟩,
    by decide⟩,
   opacity_zero_identity ext0 imgRGB1 (7, 8, 9) 0 "top_left" 50 400 (by decide)
     (Or.inl rfl)
     (fun x y hx hy => ⟨⟨by simp [imgRGB1], by simp [imgRGB1], by simp [imgRGB1], by simp [imgRGB1]⟩, fun _ => rfl⟩)⟩

/-! ### Batch pipeline and archive: claims C5 and C6 -/

/-- Inserting a fresh key into the dict appends the pair. -/
theorem dictInsert_not_mem {α : Type} (d : List (String × α)) (k : String) (v : α)
    (hk : k ∉ d.map Prod.fst) : dictInsert d k v = d ++ [(k, v)] := by
  unfold dictInsert
  have hfalse : d.any (fun p => p.1 == k) = false := by
    simp only [List.any_eq_false, beq_iff_eq]
    intro p hp he
    exact hk (he ▸ List.mem_map_of_mem Prod.fst hp)
  rw [if_neg (by rw [hfalse]; simp)]

/-- When the file names are distinct, the batch loop produces exactly the
successful pairs as the dict and exactly the failure records, both in file
order and independent of the starting accumulators. -/
theorem processLoop_eq {α : Type} :
    ∀ (files : List (String × Except String α)) (acc : List (String × α))
      (errs : List (String × String)),
      (files.map Prod.fst).Nodup →
      (∀ f ∈ files, f.1 ∉ acc.map Prod.fst) →
      processLoop acc errs files =
        (acc ++ files.filterMap okPair, errs ++ files.filterMap errPair) := by
  intro files
  induction files with
  | nil =>
    intro acc errs hnd hdisj
    simp [processLoop]
  | cons f rest ih =>
    intro acc errs hnd hdisj
    obtain ⟨n, r⟩ := f
    rw [List.map_cons] at hnd
    have hnrest : n ∉ rest.map Prod.fst := (List.nodup_cons.mp hnd).1
    have hnd2 : (rest.map Prod.fst).Nodup := (List.nodup_cons.mp hnd).2
    cases r with
    | ok img =>
      have hnotmem : n ∉ acc.map Prod.fst :=
        hdisj (n, Except.ok img) (List.mem_cons_self _ _)
      have hdisj2 : ∀ g ∈ rest, g.1 ∉ (dictInsert acc n img).map Prod.fst := by
        intro g hg
        rw [dictInsert_not_mem acc n img hnotmem, List.map_append, List.mem_append]
        rintro (hga | hgb)
        · exact hdisj g (List.mem_cons_of_mem _ hg) hga
        · simp only [List.map_cons, List.map_nil, List.mem_singleton] at hgb
          exact hnrest (hgb ▸ List.mem_map_of_mem Prod.fst hg)
      show processLoop (dictInsert acc n img) errs rest = _
      rw [ih (dictInsert acc n img) errs hnd2 hdisj2,
        dictInsert_not_mem acc n img hnotmem]
      simp [okPair, errPair]
    | error e =>
      have hdisj2 : ∀ g ∈ rest, g.1 ∉ acc.map Prod.fst := by
        intro g hg
        exact hdisj g (List.mem_cons_of_mem _ hg)
      show processLoop acc (errs ++ [(n, e)]) rest = _
      rw [ih acc (errs ++ [(n, e)]) hnd2 hdisj2]
      simp [okPair, errPair]

/-- The number of successful pairs equals the number of successful files. -/
theorem filterMap_ok_length {α : Type} (files : List (String × Except String α)) :
    (files.filterMap okPair).length = files.countP (fun f => Except.isOk f.2) := by
  induction files with
  | nil => rfl
  | cons f rest ih =>
    obtain ⟨n, r⟩ := f
    cases r with
    | ok img =>
      simp [okPair, List.filterMap_cons, List.countP_cons, Except.isOk, Except.toBool, ih]
    | error e =>
      simp [okPair, List.filterMap_cons, List.countP_cons, Except.isOk, Except.toBool, ih]

/-- The number of failure records equals the number of failing files. -/
theorem filterMap_err_length {α : Type} (files : List (String × Except String α)) :
    (files.filterMap errPair).length = files.countP (fun f => !(Except.isOk f.2)) := by
  induction files with
  | nil => rfl
  | cons f rest ih =>
    obtain ⟨n, r⟩ := f
    cases r with
    | ok img =>
      simp [errPair, List.filterMap_cons, List.countP_cons, Except.isOk, Except.toBool, ih]
    | error e =>
      simp [errPair, List.filterMap_cons, List.countP_cons, Except.isOk, Except.toBool, ih]

/-- Claim C5: the batch pipeline is failure-isolated: every failing source
is recorded against its identifier and processing continues, so a batch
with distinct names produces exactly one successful entry per decodable
source, exactly one failure record per failing source, and the packed
archive has exactly one entry per successful source. -/
theorem batch_failure_isolation {α : Type} (files : List (String × Except String α))
    (hnd : (files.map Prod.fst).Nodup) :
    (process_images files).1.length = files.countP (fun f => Except.isOk f.2) ∧
    (process_images files).2.length = files.countP (fun f => !(Except.isOk f.2)) ∧
    (∀ n e, (n, Except.error e) ∈ files → (n, e) ∈ (process_images files).2) ∧
    (create_zip_file (process_images files).1).length =
      files.countP (fun f => Except.isOk f.2) := by
  have heq := processLoop_eq files [] [] hnd (by intro f hf; simp)
  unfold process_images
  rw [heq]
  simp only [List.nil_append]
  refine ⟨filterMap_ok_length files, filterMap_err_length files, ?_, ?_⟩
  · intro n e hmem
    exact List.mem_filterMap.mpr ⟨(n, Except.error e), hmem, rfl⟩
  · unfold create_zip_file
    rw [List.length_map]
    exact filterMap_ok_length files

/-- Witness for C5 at a batch with one corrupt source among two valid
ones: two successes, one recorded failure, two archive entries. -/
theorem batch_failure_isolation_witness :
    ((batchFiles.map Prod.fst).Nodup) ∧
    ((process_images batchFiles).1.length =
       batchFiles.countP (fun f => Except.isOk f.2) ∧
     (process_images batchFiles).2.length =
       batchFiles.countP (fun f => !(Except.isOk f.2)) ∧
     (∀ n e, (n, Except.error e) ∈ batchFiles → (n, e) ∈ (process_images batchFiles).2) ∧
     (create_zip_file (process_images batchFiles).1).length =
       batchFiles.countP (fun f => Except.isOk f.2)) :=
  ⟨by decide, batch_failure_isolation batchFiles (by decide)⟩

/-- Claim C6: every successfully processed entry with original filename `f`
is packed as PNG when `f` ends in `.png` case-insensitively and otherwise
as JPEG at fixed quality 95, under the derived name
`stem(f) + "_watermarked" + ext`; every archive entry arises that way from
a successful source, and sources recorded as failures contribute nothing to
the dict the archive is built from. -/
theorem archive_format_and_naming {α : Type} (files : List (String × Except String α))
    (hnd : (files.map Prod.fst).Nodup) :
    (∀ (d : List (String × α)) (n : String) (img : α), (n, img) ∈ d →
      (lowerEndsWithPng n = true →
        ({ name := derivedName n ".png", payload := Payload.png img } : ArchiveEntry α) ∈
          create_zip_file d) ∧
      (lowerEndsWithPng n = false →
        ({ name := derivedName n ".jpg", payload := Payload.jpeg img 95 } : ArchiveEntry α) ∈
          create_zip_file d)) ∧
    (∀ e ∈ create_zip_file (process_images files).1, ∃ n img,
      (n, Except.ok img) ∈ files ∧
      e = (if lowerEndsWithPng n then
            ({ name := derivedName n ".png", payload := Payload.png img } : ArchiveEntry α)
           else { name := derivedName n ".jpg", payload := Payload.jpeg img 95 })) ∧
    (∀ n e, (n, Except.error e) ∈ files → ∀ img : α, (n, img) ∉ (process_images files).1) := by
  have heq := processLoop_eq files [] [] hnd (by intro f hf; simp)
  refine ⟨?_, ?_, ?_⟩
  · intro d n img hmem
    constructor
    · intro hpng
      unfold create_zip_file
      have hmap := List.mem_map_of_mem
        (fun p : String × α =>
          if lowerEndsWithPng p.1 then
            ({ name := derivedName p.1 ".png", payload := Payload.png p.2 } : ArchiveEntry α)
          else { name := derivedName p.1 ".jpg", payload := Payload.jpeg p.2 95 }) hmem
      simpa [hpng] using hmap
    · intro hpng
      unfold create_zip_file
      have hmap := List.mem_map_of_mem
        (fun p : String × α =>
          if lowerEndsWithPng p.1 then
            ({ name := derivedName p.1 ".png", payload := Payload.png p.2 } : ArchiveEntry α)
          else { name := derivedName p.1 ".jpg", payload := Payload.jpeg p.2 95 }) hmem
      simpa [hpng] using hmap
  · intro e he
    unfold process_images at he
    rw [heq] at he
    simp only [List.nil_append] at he
    unfold create_zip_file at he
    obtain ⟨p, hp, hpe⟩ := List.mem_map.mp he
    obtain ⟨f, hf, hfp⟩ := List.mem_filterMap.mp hp
    obtain ⟨m, r⟩ := f
    cases r with
    | ok img =>
      simp only [okPair, Option.some.injEq] at hfp
      refine ⟨m, img, hf, ?_⟩
      rw [← hfp] at hpe
      exact hpe.symm
    | error e2 =>
      simp [okPair] at hfp
  · intro n e hmem img hcontra
    unfold process_images at hcontra
    rw [heq] at hcontra
    simp only [List.nil_append] at hcontra
    obtain ⟨f, hf, hfp⟩ := List.mem_filterMap.mp hcontra
    obtain ⟨m, r⟩ := f
    cases r with
    | ok img2 =>
      simp only [okPair, Option.some.injEq, Prod.mk.injEq] at hfp
      have hxy := List.inj_on_of_nodup_map hnd hmem hf (by rw [hfp.1])
      have hsnd := congrArg Prod.snd hxy
      exact Except.noConfusion hsnd
    | error e2 =>
      simp [okPair] at hfp

/-- Witness for C6 at the single-file batch `pngFiles` (an uppercase
`.PNG` original). -/
theorem archive_format_and_naming_witness :
    ((pngFiles.map Prod.fst).Nodup) ∧
    ((∀ (d : List (String × ℕ)) (n : String) (img : ℕ), (n, img) ∈ d →
       (lowerEndsWithPng n = true →
         ({ name := derivedName n ".png", payload := Payload.png img } : ArchiveEntry ℕ) ∈
           create_zip_file d) ∧
       (lowerEndsWithPng n = false →
         ({ name := derivedName n ".jpg", payload := Payload.jpeg img 95 } : ArchiveEntry ℕ) ∈
           create_zip_file d)) ∧
     (∀ e ∈ create_zip_file (process_images pngFiles).1, ∃ n img,
       (n, Except.ok img) ∈ pngFiles ∧
       e = (if lowerEndsWithPng n then
             ({ name := derivedName n ".png", payload := Payload.png img } : ArchiveEntry ℕ)
            else { name := derivedName n ".jpg", payload := Payload.jpeg img 95 })) ∧
     (∀ n e, (n, Except.error e) ∈ pngFiles → ∀ img : ℕ, (n, img) ∉ (process_images pngFiles).1)) :=
  ⟨by decide, archive_format_and_naming pngFiles (by decide)⟩
